import Mathlib

/-!
Verification development for the `fix_if.py` patcher.

The script reads each of three fixed files, applies eight ordered
regular-expression substitutions to the whole content, writes the content
back and prints one confirmation line per file.  Every pattern has the
shape: literal text capital-I, lowercase-f, space, opening parenthesis,
then one of eight predicate-function names, an opening parenthesis, one
or more characters none of which is a closing parenthesis, a closing
parenthesis, a space, and an opening brace.  The replacement re-emits the
captured call and inserts one extra closing parenthesis before the space
and the opening brace.

Strings are modelled as lists of characters.  The opening-brace character
is written as `Char.ofNat 123` throughout.
-/

abbrev Str := List Char

/-- The opening-brace character. -/
def lb : Char := Char.ofNat 123

/-- The predicate used by the character class of the patterns: any
character other than a closing parenthesis. -/
def notRP (c : Char) : Bool := c != ')'

/-- Strip a literal string from the front: `stripL p s = some r` when
`s = p ++ r`, otherwise `none`. -/
def stripL : Str → Str → Option Str
  | [], s => some s
  | _ :: _, [] => none
  | a :: p, b :: s => if a = b then stripL p s else none

/-- The literal text at the start of every pattern. -/
def ifOpen : Str := ['I', 'f', ' ', '(']

/-- The literal text of a pattern up to and including the predicate
function's opening parenthesis. -/
def pre (F : Str) : Str := ifOpen ++ (F ++ ['('])

/-- The literal text closing every pattern: closing parenthesis, space,
opening brace. -/
def close1 : Str := [')', ' ', lb]

/-- The text ending every replacement: two closing parentheses, space,
opening brace. -/
def close2 : Str := [')', ')', ' ', lb]

/-- Regular-expression match at position 0 for the pattern of function
name `F`.  Returns the argument text (the `[^)]+` part) and the rest of
the input after the match.  Mirrors the pattern
`If \((F\([^)]+\)) \{` of `fix_if.py`: the greedy character class stops
at the first closing parenthesis, which must be followed by exactly one
space and an opening brace. -/
def matchAt (F : Str) (s : Str) : Option (Str × Str) :=
  match stripL (pre F) s with
  | none => none
  | some r =>
    match stripL close1 (r.dropWhile notRP) with
    | none => none
    | some rest => if r.takeWhile notRP = [] then none else some (r.takeWhile notRP, rest)

/-- The replacement text for a match with argument text `w`: the pattern
re-emits the call and adds one closing parenthesis, i.e.
`If (F(w)) ` followed by the opening brace. -/
def repl (F : Str) (w : Str) : Str := pre F ++ (w ++ close2)

/-- One pass of `re.sub` for the pattern of name `F`, with explicit fuel:
scan left to right, replace each non-overlapping match, copy every other
character. -/
def subFuel (F : Str) : Nat → Str → Str
  | 0, s => s
  | _ + 1, [] => []
  | n + 1, c :: cs =>
    match matchAt F (c :: cs) with
    | some (w, r) => repl F w ++ subFuel F n r
    | none => c :: subFuel F n cs

/-- One pass of `re.sub` for the pattern of name `F` over a whole
string. -/
def subF (F : Str) (s : Str) : Str := subFuel F s.length s

/-- The eight predicate-function names, in the order their patterns are
listed in `fix_if.py`. -/
def functionNames : List Str :=
  ["CONTAINS".data, "HAS_KEY".data, "STARTS_WITH".data,
   "REGEX_WILDCARD_MATCH".data, "REGEX_IS_DIGIT".data,
   "REGEX_IS_ALPHA".data, "REGEX_IS_EMAIL".data, "REGEX_IS_URL".data]

/-- Apply the substitution passes of a list of rule names in order, each
pass scanning the whole current content (the `for pattern, replacement in
patterns` loop of `fix_if_statements`). -/
def applyRules (L : List Str) (s : Str) : Str :=
  L.foldl (fun acc F => subF F acc) s

/-- The complete in-memory transformation of `fix_if_statements`: the
eight substitutions in their listed order. -/
def fixContent (s : Str) : Str := applyRules functionNames s

/-- Leftmost decomposition `w = fst ++ p ++ snd` with `snd` nonempty,
used to locate an occurrence of a pattern head inside argument text. -/
def innerSplit (p : Str) : Str → Option (Str × Str)
  | [] => none
  | c :: w =>
    match stripL p (c :: w) with
    | some (u :: us) => some ([], u :: us)
    | _ =>
      match innerSplit p w with
      | some (al, u) => some (c :: al, u)
      | none => none

/-- No pattern match for name `F` starts at any position of `s`. -/
def noMatch (F : Str) (s : Str) : Prop :=
  ∀ i, matchAt F (List.drop i s) = none

/-- A file-system state: an association list from paths to contents,
plus the lines printed to standard output so far. -/
structure FS where
  files : List (String × Str)
  output : List String
deriving DecidableEq

/-- Look a path up in the file table. -/
def lookupFile (p : String) : List (String × Str) → Option Str
  | [] => none
  | (q, c) :: rest => if q = p then some c else lookupFile p rest

/-- Write a path in the file table, truncating prior content (creating
the entry if absent, as `open(path, "w")` does). -/
def writeFile (p : String) (c : Str) : List (String × Str) → List (String × Str)
  | [] => [(p, c)]
  | (q, d) :: rest => if q = p then (q, c) :: rest else (q, d) :: writeFile p c rest

/-- The patcher for one file: read the whole content (an absent file is
an unrecovered I/O failure carrying the path), apply the eight
substitutions, write the result back, then print one confirmation
line naming the file. -/
def fix_if_statements (filepath : String) (st : FS) : Except String FS :=
  match lookupFile filepath st.files with
  | none => Except.error filepath
  | some content =>
      Except.ok { files := writeFile filepath (fixContent content) st.files,
                  output := st.output ++ ["Fixed " ++ filepath] }

/-- The fixed three-path list of the driver, in its listed order. -/
def targetFiles : List String :=
  ["stdlib/cli_utils.aether", "stdlib/text_template.aether", "stdlib/regex_utils.aether"]

/-- The driver loop: process the paths in order; a failure on one path
aborts the remaining iterations, and the error carries the failing path
together with the state at the time of failure. -/
def runAll : List String → FS → Except (String × FS) FS
  | [], st => Except.ok st
  | p :: ps, st =>
    match fix_if_statements p st with
    | Except.error e => Except.error (e, st)
    | Except.ok st' => runAll ps st'

/-- A whole run of the script. -/
def runMain (st : FS) : Except (String × FS) FS := runAll targetFiles st

/-- The defective line of claim C1 for function name `F`:
`If (F(x, y) ` with missing closing parenthesis before the brace. -/
def defLine (F : Str) : Str := ifOpen ++ (F ++ ('(' :: ("x, y".data ++ close1)))

/-- The repaired line of claim C1 for function name `F`. -/
def fixedLine (F : Str) : Str := ifOpen ++ (F ++ ('(' :: ("x, y".data ++ close2)))

/-- The claim C3 input: `If (CONTAINS(a, FOO(b)) ` with both inner
parentheses closed, followed by a space and the opening brace. -/
def c3line : Str := ifOpen ++ ("CONTAINS".data ++ ('(' :: ("a, FOO(b".data ++ (')' :: close1))))

/-- The output the spec's stop-at-first-parenthesis repair would have
produced for `c3line`: one more closing parenthesis before the brace. -/
def c3repaired : Str := ifOpen ++ ("CONTAINS".data ++ ('(' :: ("a, FOO(b".data ++ (')' :: close2))))

/-- A nested call left unclosed: `If (CONTAINS(a, FOO(b) ` followed by
the opening brace; here the first closing parenthesis is immediately
followed by the space and the brace. -/
def c3lineUnclosed : Str := ifOpen ++ ("CONTAINS".data ++ ('(' :: ("a, FOO(b".data ++ close1)))

/-- The result of repairing `c3lineUnclosed`: the inserted parenthesis
lands after the first closing parenthesis, i.e. after the nested call. -/
def c3lineUnclosedOut : Str := ifOpen ++ ("CONTAINS".data ++ ('(' :: ("a, FOO(b".data ++ close2)))

/-! ### Basic facts about the matching primitives -/

theorem stripL_some_iff (p : Str) : ∀ s r, stripL p s = some r ↔ s = p ++ r := by
  induction p with
  | nil => intro s r; simp [stripL]
  | cons a p ih =>
    intro s r
    cases s with
    | nil => simp [stripL]
    | cons b s =>
      by_cases hab : a = b
      · subst hab
        simp [stripL, ih]
      · simp [stripL, hab, Ne.symm hab]

theorem notRP_true {c : Char} (h : c ≠ ')') : notRP c = true := by
  simp [notRP, h]

theorem notRP_rp : notRP ')' = false := by
  simp [notRP]

theorem takeWhile_notRP_eq (w t : Str) (hw : ')' ∉ w) :
    List.takeWhile notRP (w ++ ')' :: t) = w := by
  induction w with
  | nil => simp [List.takeWhile_cons, notRP_rp]
  | cons c w ih =>
    have hc : c ≠ ')' := fun h => hw (by simp [h])
    have hw' : ')' ∉ w := fun h => hw (List.mem_cons_of_mem _ h)
    simp [List.takeWhile_cons, notRP_true hc, ih hw']

theorem dropWhile_notRP_eq (w t : Str) (hw : ')' ∉ w) :
    List.dropWhile notRP (w ++ ')' :: t) = ')' :: t := by
  induction w with
  | nil => simp [List.dropWhile_cons, notRP_rp]
  | cons c w ih =>
    have hc : c ≠ ')' := fun h => hw (by simp [h])
    have hw' : ')' ∉ w := fun h => hw (List.mem_cons_of_mem _ h)
    simp [List.dropWhile_cons, notRP_true hc, ih hw']

theorem not_rp_mem_takeWhile (r : Str) : ')' ∉ List.takeWhile notRP r := by
  intro h
  have := List.mem_takeWhile_imp h
  rw [notRP_rp] at this
  exact Bool.false_ne_true this

theorem matchAt_some_iff {F s : Str} {w r : Str} :
    matchAt F s = some (w, r) ↔
      s = pre F ++ (w ++ (')' :: ' ' :: lb :: r)) ∧ w ≠ [] ∧ ')' ∉ w := by
  constructor
  · intro h
    unfold matchAt at h
    split at h
    · exact absurd h (by simp)
    · rename_i ρ hp
      split at h
      · exact absurd h (by simp)
      · rename_i rest hc
        split at h
        · exact absurd h (by simp)
        · rename_i hw
          simp only [Option.some.injEq, Prod.mk.injEq] at h
          obtain ⟨hw1, hr1⟩ := h
          have hs : s = pre F ++ ρ := (stripL_some_iff _ _ _).mp hp
          have hd : ρ.dropWhile notRP = close1 ++ rest := (stripL_some_iff _ _ _).mp hc
          have h0 := List.takeWhile_append_dropWhile (p := notRP) (l := ρ)
          rw [hd, hw1, hr1] at h0
          refine ⟨by rw [hs, ← h0]; simp [close1], ?_, ?_⟩
          · rw [← hw1]; exact hw
          · rw [← hw1]; exact not_rp_mem_takeWhile ρ
  · rintro ⟨hs, hw, hmem⟩
    subst hs
    have hp : stripL (pre F) (pre F ++ (w ++ (')' :: ' ' :: lb :: r)))
        = some (w ++ (')' :: ' ' :: lb :: r)) := (stripL_some_iff _ _ _).mpr rfl
    have htake : List.takeWhile notRP (w ++ ')' :: ' ' :: lb :: r) = w :=
      takeWhile_notRP_eq w _ hmem
    have hdrop : List.dropWhile notRP (w ++ ')' :: ' ' :: lb :: r) = ')' :: ' ' :: lb :: r :=
      dropWhile_notRP_eq w _ hmem
    have hc : stripL close1 (')' :: ' ' :: lb :: r) = some r := by
      apply (stripL_some_iff _ _ _).mpr; simp [close1]
    simp only [matchAt, hp, htake, hdrop, hc]
    rw [if_neg hw]

theorem matchAt_nil (F : Str) : matchAt F [] = none := by
  unfold matchAt
  have : stripL (pre F) [] = none := by
    have hp : pre F = 'I' :: ('f' :: (' ' :: ('(' :: (F ++ ['('])))) := by simp [pre, ifOpen]
    rw [hp]; rfl
  rw [this]

theorem matchAt_none_of_head {c : Char} (F : Str) (s : Str) (h : c ≠ 'I') :
    matchAt F (c :: s) = none := by
  unfold matchAt
  have : stripL (pre F) (c :: s) = none := by
    have hp : pre F = 'I' :: ('f' :: (' ' :: ('(' :: (F ++ ['('])))) := by simp [pre, ifOpen]
    rw [hp]
    simp [stripL, Ne.symm h]
  rw [this]

theorem matchAt_rest_lt {F s w r : Str} (h : matchAt F s = some (w, r)) :
    r.length < s.length := by
  obtain ⟨hs, hw, -⟩ := matchAt_some_iff.mp h
  subst hs
  have hwpos : 0 < w.length := List.length_pos.mpr hw
  simp [pre, ifOpen]
  omega

theorem subF_nil (F : Str) : subF F [] = [] := rfl

theorem subF_cons_none {F : Str} {c : Char} {cs : Str}
    (h : matchAt F (c :: cs) = none) : subF F (c :: cs) = c :: subF F cs := by
  show subFuel F (cs.length + 1) (c :: cs) = c :: subFuel F cs.length cs
  rw [subFuel, h]

theorem subFuel_eq_subF (F : Str) : ∀ n s, s.length ≤ n → subFuel F n s = subF F s := by
  intro n
  induction n using Nat.strong_induction_on with
  | _ n ih =>
    intro s hs
    match n, s with
    | 0, s =>
      have : s = [] := List.length_eq_zero.mp (Nat.le_zero.mp hs)
      subst this; rfl
    | n + 1, [] => rfl
    | n + 1, c :: cs =>
      have hs' : cs.length + 1 ≤ n + 1 := by simpa using hs
      cases hm : matchAt F (c :: cs) with
      | none =>
        rw [subFuel, hm, subF_cons_none hm]
        rw [ih n (Nat.lt_succ_self n) cs (by omega)]
      | some p =>
        obtain ⟨w, r⟩ := p
        have hr : r.length ≤ cs.length := by
          have := matchAt_rest_lt hm
          simp at this; omega
        simp only [subFuel, hm]
        have h2 : subF F (c :: cs) = repl F w ++ subFuel F cs.length r := by
          show subFuel F (cs.length + 1) (c :: cs) = _
          simp only [subFuel, hm]
        rw [h2]
        congr 1
        rw [ih n (Nat.lt_succ_self n) r (by omega)]
        rw [ih cs.length (by omega) r hr]

theorem subF_match {F s w r : Str} (h : matchAt F s = some (w, r)) :
    subF F s = repl F w ++ subF F r := by
  cases s with
  | nil => rw [matchAt_nil] at h; exact absurd h (by simp)
  | cons c cs =>
    have hr : r.length ≤ cs.length := by
      have := matchAt_rest_lt h; simp at this; omega
    show subFuel F (cs.length + 1) (c :: cs) = _
    simp only [subFuel, h]
    rw [subFuel_eq_subF F cs.length r hr]

/-! ### Position-based no-match lemmas -/

theorem split_unique (ch : Char) :
    ∀ (a b x y : Str), ch ∉ a → ch ∉ b → a ++ ch :: x = b ++ ch :: y →
      a = b ∧ x = y := by
  intro a
  induction a with
  | nil =>
    intro b x y _ hb h
    cases b with
    | nil => simpa using h
    | cons d b =>
      simp only [List.nil_append, List.cons_append, List.cons.injEq] at h
      exact absurd (h.1 ▸ List.mem_cons_self d b) hb
  | cons c a ih =>
    intro b x y ha hb h
    cases b with
    | nil =>
      simp only [List.cons_append, List.nil_append, List.cons.injEq] at h
      exact absurd (h.1 ▸ List.mem_cons_self c a) ha
    | cons d b =>
      simp only [List.cons_append, List.cons.injEq] at h
      obtain ⟨hcd, h2⟩ := h
      have ha' : ch ∉ a := fun hx => ha (List.mem_cons_of_mem _ hx)
      have hb' : ch ∉ b := fun hx => hb (List.mem_cons_of_mem _ hx)
      obtain ⟨hab, hxy⟩ := ih b x y ha' hb' h2
      exact ⟨by rw [hcd, hab], hxy⟩

theorem not_rp_pre {F : Str} (hF : ')' ∉ F) : ')' ∉ pre F := by
  intro h
  rw [pre, ifOpen] at h
  rcases List.mem_append.mp h with h | h
  · exact absurd h (by decide)
  · rcases List.mem_append.mp h with h | h
    · exact hF h
    · exact absurd h (by decide)

theorem matchAt_none_firstParen {F a b : Str} (hF : ')' ∉ F) (ha : ')' ∉ a)
    (hb : ∀ b₂ : Str, b ≠ ' ' :: lb :: b₂) :
    matchAt F (a ++ ')' :: b) = none := by
  cases hm : matchAt F (a ++ ')' :: b) with
  | none => rfl
  | some p =>
    obtain ⟨w, r⟩ := p
    obtain ⟨hs, hw, hmem⟩ := matchAt_some_iff.mp hm
    have hnp : ')' ∉ pre F ++ w := by
      intro h
      rcases List.mem_append.mp h with h | h
      · exact not_rp_pre hF h
      · exact hmem h
    obtain ⟨-, h2⟩ := split_unique ')' a (pre F ++ w) b (' ' :: lb :: r) ha hnp
      (by rw [hs]; simp [List.append_assoc])
    exact absurd h2 (hb r)

theorem subF_skip {F : Str} : ∀ (a x : Str),
    (∀ i, i < a.length → matchAt F (List.drop i (a ++ x)) = none) →
    subF F (a ++ x) = a ++ subF F x := by
  intro a
  induction a with
  | nil => intro x _; rfl
  | cons c a ih =>
    intro x h
    have h0 : matchAt F (c :: (a ++ x)) = none := by
      have := h 0 (by simp)
      simpa using this
    rw [List.cons_append, subF_cons_none h0]
    rw [ih x (fun i hi => by
      have := h (i + 1) (by simp; omega)
      simpa using this)]
    simp

theorem drop_len_add {α : Type} : ∀ (a x : List α) (k : Nat),
    List.drop (a.length + k) (a ++ x) = List.drop k x := by
  intro a
  induction a with
  | nil => intro x k; simp
  | cons c a ih => intro x k; simp [Nat.succ_add, ih x k]

/-- The text of a replacement: the pattern head for name `K`, argument
text `v`, then two closing parentheses, a space and the opening brace. -/
theorem head_no_match {F K v : Str} (hF : ')' ∉ F) (hK : ')' ∉ K) (hv : ')' ∉ v)
    (t : Str) :
    ∀ i, i < (repl K v).length → matchAt F (List.drop i (repl K v ++ t)) = none := by
  intro i hi
  have hrl : (repl K v).length = (pre K ++ v).length + 4 := by
    simp only [repl, close2, List.length_append, List.length_cons, List.length_nil]
    omega
  have hshape : repl K v ++ t = (pre K ++ v) ++ ')' :: ')' :: ' ' :: lb :: t := by
    simp [repl, close2]
  rw [hshape]
  set a := pre K ++ v with hadef
  have hna : ')' ∉ a := by
    intro h
    rcases List.mem_append.mp h with h | h
    · exact not_rp_pre hK h
    · exact hv h
  by_cases hia : i ≤ a.length
  · rw [List.drop_append_of_le_length hia]
    have hd : ')' ∉ List.drop i a := fun h => hna (List.drop_subset i a h)
    exact matchAt_none_firstParen hF hd (fun b₂ => by simp)
  · have hi4 : i < a.length + 4 := by rw [hrl] at hi; omega
    have : ∃ k, k < 4 ∧ i = a.length + k := ⟨i - a.length, by omega, by omega⟩
    obtain ⟨k, hk4, hik⟩ := this
    subst hik
    rw [drop_len_add]
    interval_cases k
    · omega
    · exact matchAt_none_of_head F _ (by decide)
    · exact matchAt_none_of_head F _ (by decide)
    · exact matchAt_none_of_head F _ (by decide)

/-! ### Occurrences of a pattern head inside argument text -/

theorem innerSplit_spec (p : Str) : ∀ w al u, innerSplit p w = some (al, u) →
    w = al ++ (p ++ u) ∧ u ≠ [] := by
  intro w
  induction w with
  | nil => intro al u h; exact absurd h (by simp [innerSplit])
  | cons c w ih =>
    intro al u h
    unfold innerSplit at h
    split at h
    · rename_i u1 us1 hstrip
      simp only [Option.some.injEq, Prod.mk.injEq] at h
      obtain ⟨h1, h2⟩ := h
      have hw := (stripL_some_iff _ _ _).mp hstrip
      refine ⟨?_, by rw [← h2]; simp⟩
      rw [← h1, ← h2, hw]; simp
    · split at h
      · rename_i al1 u1 hrec
        simp only [Option.some.injEq, Prod.mk.injEq] at h
        obtain ⟨h1, h2⟩ := h
        obtain ⟨hw, hu⟩ := ih al1 u1 hrec
        refine ⟨?_, by rw [← h2]; exact hu⟩
        rw [← h1, ← h2, List.cons_append, ← hw]
      · exact absurd h (by simp)

theorem innerSplit_min (p : Str) : ∀ w al u, innerSplit p w = some (al, u) →
    ∀ be z, w = be ++ (p ++ z) → z ≠ [] → al.length ≤ be.length := by
  intro w
  induction w with
  | nil => intro al u h; exact absurd h (by simp [innerSplit])
  | cons c w ih =>
    intro al u h be z hwz hz
    unfold innerSplit at h
    split at h
    · rename_i u1 us1 hstrip
      simp only [Option.some.injEq, Prod.mk.injEq] at h
      rw [← h.1]; simp
    · split at h
      · rename_i hnot hwild al1 u1 hrec
        simp only [Option.some.injEq, Prod.mk.injEq] at h
        obtain ⟨h1, h2⟩ := h
        cases be with
        | nil =>
          have hst : stripL p (c :: w) = some z :=
            (stripL_some_iff _ _ _).mpr (by simpa using hwz)
          cases z with
          | nil => exact absurd rfl hz
          | cons z0 zs => exact absurd hst (fun hs => hnot z0 zs hs)
        | cons b0 be1 =>
          have hw1 : w = be1 ++ (p ++ z) := by
            have h3 := hwz
            simp only [List.cons_append, List.cons.injEq] at h3
            exact h3.2
          have := ih al1 u1 hrec be1 z hw1 hz
          rw [← h1]
          simp only [List.length_cons]
          omega
      · exact absurd h (by simp)

theorem innerSplit_none (p : Str) : ∀ w, innerSplit p w = none →
    ∀ be z, w = be ++ (p ++ z) → z = [] := by
  intro w
  induction w with
  | nil =>
    intro _ be z hwz
    have hlen := congrArg List.length hwz
    simp only [List.length_nil, List.length_append] at hlen
    exact List.length_eq_zero.mp (by omega)
  | cons c w ih =>
    intro h be z hwz
    unfold innerSplit at h
    split at h
    · exact absurd h (by simp)
    · split at h
      · exact absurd h (by simp)
      · rename_i hnot hwild hrec
        cases be with
        | nil =>
          by_contra hz
          have hst : stripL p (c :: w) = some z :=
            (stripL_some_iff _ _ _).mpr (by simpa using hwz)
          cases z with
          | nil => exact hz rfl
          | cons z0 zs => exact absurd hst (fun hs => hnot z0 zs hs)
        | cons b0 be1 =>
          refine ih hrec be1 z ?_
          have h3 := hwz
          simp only [List.cons_append, List.cons.injEq] at h3
          exact h3.2

/-! ### A substitution pass never creates a new match -/

theorem subF_cons_inv {G b : Str} {c : Char} {t : Str}
    (h : subF G b = c :: t) (hc : c ≠ 'I') : ∃ b₀, b = c :: b₀ ∧ t = subF G b₀ := by
  cases b with
  | nil => rw [subF_nil] at h; exact absurd h (by simp)
  | cons d b1 =>
    cases hm : matchAt G (d :: b1) with
    | some p =>
      obtain ⟨w, r⟩ := p
      rw [subF_match hm] at h
      have hrepl : repl G w ++ subF G r
          = 'I' :: ('f' :: (' ' :: ('(' :: ((G ++ ('(' :: (w ++ close2))) ++ subF G r)))) := by
        simp [repl, pre, ifOpen]
      rw [hrepl] at h
      have : 'I' = c := by
        have := congrArg (fun l => List.head? l) h
        simpa using this
      exact absurd this.symm hc
    | none =>
      rw [subF_cons_none hm] at h
      injection h with h1 h2
      exact ⟨b1, by rw [h1], h2.symm⟩

theorem subF_firstParen {G : Str} (hG : ')' ∉ G) :
    ∀ n s a b', s.length ≤ n → subF G s = a ++ ')' :: b' → ')' ∉ a →
    ∃ b, s = a ++ ')' :: b ∧
      (b' = subF G b ∨ ∃ b₂, b = ' ' :: lb :: b₂ ∧ b' = ')' :: ' ' :: lb :: subF G b₂) := by
  intro n
  induction n with
  | zero =>
    intro s a b' hn h _
    have hnil : s = [] := List.length_eq_zero.mp (Nat.le_zero.mp hn)
    subst hnil
    rw [subF_nil] at h
    exact absurd h.symm (by simp)
  | succ n ih =>
    intro s a b' hn h ha
    cases s with
    | nil =>
      rw [subF_nil] at h
      exact absurd h.symm (by simp)
    | cons c cs =>
      cases hm : matchAt G (c :: cs) with
      | some p =>
        obtain ⟨w, r⟩ := p
        obtain ⟨hs, hw, hmem⟩ := matchAt_some_iff.mp hm
        rw [subF_match hm] at h
        have hshape : repl G w ++ subF G r
            = (pre G ++ w) ++ ')' :: (')' :: ' ' :: lb :: subF G r) := by
          simp [repl, close2]
        rw [hshape] at h
        have hnp : ')' ∉ pre G ++ w := by
          intro hx
          rcases List.mem_append.mp hx with hx | hx
          · exact not_rp_pre hG hx
          · exact hmem hx
        obtain ⟨h1, h2⟩ :=
          split_unique ')' (pre G ++ w) a (')' :: ' ' :: lb :: subF G r) b' hnp ha h
        refine ⟨' ' :: lb :: r, ?_, Or.inr ⟨r, rfl, h2.symm⟩⟩
        rw [hs, ← h1]
        simp [List.append_assoc]
      | none =>
        rw [subF_cons_none hm] at h
        cases a with
        | nil =>
          simp only [List.nil_append, List.cons.injEq] at h
          obtain ⟨hc, hb⟩ := h
          exact ⟨cs, by rw [hc]; simp, Or.inl hb.symm⟩
        | cons a0 a1 =>
          simp only [List.cons_append, List.cons.injEq] at h
          obtain ⟨hc, h2⟩ := h
          have ha1 : ')' ∉ a1 := fun hx => ha (List.mem_cons_of_mem _ hx)
          have hcs : cs.length ≤ n := by
            simp only [List.length_cons] at hn; omega
          obtain ⟨b, hb1, hb2⟩ := ih cs a1 b' hcs h2 ha1
          exact ⟨b, by rw [hc, hb1, List.cons_append], hb2⟩

theorem matchAt_subF_none {H G s : Str} (hH : ')' ∉ H) (hG : ')' ∉ G)
    (h : matchAt H s = none) : matchAt H (subF G s) = none := by
  cases hm : matchAt H (subF G s) with
  | none => rfl
  | some p =>
    obtain ⟨w, r⟩ := p
    obtain ⟨hs, hw, hmem⟩ := matchAt_some_iff.mp hm
    have hs2 : subF G s = (pre H ++ w) ++ ')' :: (' ' :: lb :: r) := by
      rw [hs]; simp [List.append_assoc]
    have hnp : ')' ∉ pre H ++ w := by
      intro hx
      rcases List.mem_append.mp hx with hx | hx
      · exact not_rp_pre hH hx
      · exact hmem hx
    obtain ⟨b, hb1, hb2⟩ :=
      subF_firstParen hG s.length s (pre H ++ w) (' ' :: lb :: r) le_rfl hs2 hnp
    rcases hb2 with hb2 | ⟨b₂, hbb, hbe⟩
    · obtain ⟨b₀, hb01, hb02⟩ := subF_cons_inv hb2.symm (by decide)
      obtain ⟨b₁, hb11, hb12⟩ := subF_cons_inv hb02.symm (by decide)
      have hmm : matchAt H s = some (w, b₁) := by
        apply matchAt_some_iff.mpr
        refine ⟨?_, hw, hmem⟩
        rw [hb1, hb01, hb11]
        simp [List.append_assoc]
      rw [hmm] at h
      exact absurd h (by simp)
    · exact absurd hbe (by simp)

/-! ### No position of the output of a pass matches again -/

theorem noMatch_nil_str (F : Str) : noMatch F [] := by
  intro i
  rw [List.drop_nil]
  exact matchAt_nil F

theorem noMatch_tail {F : Str} {c : Char} {cs : Str} (h : noMatch F (c :: cs)) :
    noMatch F cs := by
  intro i
  have := h (i + 1)
  simpa using this

theorem noMatch_cons {F : Str} {c : Char} {cs : Str}
    (h0 : matchAt F (c :: cs) = none) (h : noMatch F cs) : noMatch F (c :: cs) := by
  intro i
  cases i with
  | zero => simpa using h0
  | succ j => simpa using h j

theorem noMatch_append {F a t : Str}
    (h1 : ∀ i, i < a.length → matchAt F (List.drop i (a ++ t)) = none)
    (h2 : noMatch F t) : noMatch F (a ++ t) := by
  intro i
  by_cases hia : i < a.length
  · exact h1 i hia
  · have heq : List.drop i (a ++ t) = List.drop (i - a.length) t := by
      calc List.drop i (a ++ t) = List.drop (a.length + (i - a.length)) (a ++ t) := by
            congr 1; omega
        _ = List.drop (i - a.length) t := drop_len_add a t _
    rw [heq]
    exact h2 _

theorem noMatch_of_append_right {F x ρ : Str} (h : noMatch F (x ++ ρ)) : noMatch F ρ := by
  intro i
  have := h (x.length + i)
  rw [drop_len_add] at this
  exact this

theorem noMatch_subF_self {F : Str} (hF : ')' ∉ F) :
    ∀ n s, s.length ≤ n → noMatch F (subF F s) := by
  intro n
  induction n with
  | zero =>
    intro s hn
    have hnil : s = [] := List.length_eq_zero.mp (Nat.le_zero.mp hn)
    subst hnil
    rw [subF_nil]
    exact noMatch_nil_str F
  | succ n ih =>
    intro s hn
    cases hm : matchAt F s with
    | some p =>
      obtain ⟨w, r⟩ := p
      obtain ⟨hs, hw, hmem⟩ := matchAt_some_iff.mp hm
      rw [subF_match hm]
      apply noMatch_append
      · exact head_no_match hF hF hmem _
      · apply ih
        have := matchAt_rest_lt hm
        omega
    | none =>
      cases s with
      | nil =>
        rw [subF_nil]
        exact noMatch_nil_str F
      | cons c cs =>
        rw [subF_cons_none hm]
        apply noMatch_cons
        · have h2 : matchAt F (subF F (c :: cs)) = none := matchAt_subF_none hF hF hm
          rw [subF_cons_none hm] at h2
          exact h2
        · apply ih
          simp only [List.length_cons] at hn
          omega

theorem noMatch_subF_other {H G : Str} (hH : ')' ∉ H) (hG : ')' ∉ G) :
    ∀ n s, s.length ≤ n → noMatch H s → noMatch H (subF G s) := by
  intro n
  induction n with
  | zero =>
    intro s hn h
    have hnil : s = [] := List.length_eq_zero.mp (Nat.le_zero.mp hn)
    subst hnil
    rw [subF_nil]
    exact h
  | succ n ih =>
    intro s hn h
    cases hm : matchAt G s with
    | some p =>
      obtain ⟨w, r⟩ := p
      obtain ⟨hs, hw, hmem⟩ := matchAt_some_iff.mp hm
      rw [subF_match hm]
      apply noMatch_append
      · exact head_no_match hH hG hmem _
      · have hr : noMatch H r := by
          have heq : (pre G ++ (w ++ [')', ' ', lb])) ++ r = s := by
            rw [hs]; simp
          rw [← heq] at h
          exact noMatch_of_append_right h
        apply ih r ?_ hr
        have := matchAt_rest_lt hm
        omega
    | none =>
      cases s with
      | nil =>
        rw [subF_nil]
        exact h
      | cons c cs =>
        rw [subF_cons_none hm]
        apply noMatch_cons
        · have h0 : matchAt H (c :: cs) = none := by simpa using h 0
          have h2 : matchAt H (subF G (c :: cs)) = none := matchAt_subF_none hH hG h0
          rw [subF_cons_none hm] at h2
          exact h2
        · apply ih cs ?_ (noMatch_tail h)
          simp only [List.length_cons] at hn
          omega

theorem subF_eq_self {F : Str} : ∀ n s, s.length ≤ n → noMatch F s → subF F s = s := by
  intro n
  induction n with
  | zero =>
    intro s hn _
    have hnil : s = [] := List.length_eq_zero.mp (Nat.le_zero.mp hn)
    subst hnil
    rfl
  | succ n ih =>
    intro s hn h
    cases s with
    | nil => rfl
    | cons c cs =>
      have h0 : matchAt F (c :: cs) = none := by simpa using h 0
      rw [subF_cons_none h0]
      rw [ih cs ?_ (noMatch_tail h)]
      simp only [List.length_cons] at hn
      omega

theorem applyRules_nil (s : Str) : applyRules [] s = s := rfl

theorem applyRules_cons (F : Str) (L : List Str) (s : Str) :
    applyRules (F :: L) s = applyRules L (subF F s) := rfl

theorem noMatch_applyRules_keep {H : Str} (hH : ')' ∉ H) :
    ∀ (L : List Str), (∀ G ∈ L, ')' ∉ G) →
    ∀ s, noMatch H s → noMatch H (applyRules L s) := by
  intro L
  induction L with
  | nil => intro _ s h; exact h
  | cons G L ih =>
    intro hL s h
    rw [applyRules_cons]
    exact ih (fun G' hG' => hL G' (List.mem_cons_of_mem _ hG')) _
      (noMatch_subF_other hH (hL G (List.mem_cons_self G L)) s.length s le_rfl h)

theorem noMatch_applyRules_self {H : Str} :
    ∀ (L : List Str), (∀ G ∈ L, ')' ∉ G) → H ∈ L →
    ∀ s, noMatch H (applyRules L s) := by
  intro L
  induction L with
  | nil => intro _ hH; exact absurd hH (by simp)
  | cons G L ih =>
    intro hL hH s
    rw [applyRules_cons]
    rcases List.mem_cons.mp hH with h | h
    · subst h
      exact noMatch_applyRules_keep (hL H (List.mem_cons_self H L))
        L (fun G' hG' => hL G' (List.mem_cons_of_mem _ hG')) _
        (noMatch_subF_self (hL H (List.mem_cons_self H L)) s.length s le_rfl)
    · exact ih (fun G' hG' => hL G' (List.mem_cons_of_mem _ hG')) h _

theorem applyRules_eq_self : ∀ (L : List Str) (s : Str),
    (∀ F ∈ L, noMatch F s) → applyRules L s = s := by
  intro L
  induction L with
  | nil => intro s _; rfl
  | cons G L ih =>
    intro s h
    rw [applyRules_cons, subF_eq_self s.length s le_rfl (h G (List.mem_cons_self G L))]
    exact ih s (fun F hF => h F (List.mem_cons_of_mem _ hF))

theorem names_not_rp : ∀ G ∈ functionNames, ')' ∉ G := by decide

theorem noMatch_fixContent (s : Str) : ∀ F ∈ functionNames, noMatch F (fixContent s) :=
  fun _F hF => noMatch_applyRules_self functionNames names_not_rp hF s

/-! ### Inside the head of one rule's match, no other rule matches -/

theorem defect_no_other {F G w : Str} (hFG : F ≠ G) (hfF : 'f' ∉ F) (hpF : '(' ∉ F)
    (hpG : '(' ∉ G) (hrF : ')' ∉ F) (hrG : ')' ∉ G) (hw : ')' ∉ w) (cut : Nat)
    (hcut : cut ≤ w.length)
    (hocc : ∀ be z, w = be ++ (pre G ++ z) → z ≠ [] → cut ≤ be.length) (ρ : Str) :
    ∀ i, i < (pre F).length + cut →
      matchAt G (List.drop i (pre F ++ (w ++ (')' :: ' ' :: lb :: ρ)))) = none := by
  intro i hi
  cases hm : matchAt G (List.drop i (pre F ++ (w ++ (')' :: ' ' :: lb :: ρ)))) with
  | none => rfl
  | some p =>
    obtain ⟨u, r⟩ := p
    obtain ⟨hs, hu, humem⟩ := matchAt_some_iff.mp hm
    exfalso
    have hAlen : i ≤ (pre F ++ w).length := by
      simp only [List.length_append] at hi ⊢
      omega
    have hdropA : List.drop i (pre F ++ (w ++ (')' :: ' ' :: lb :: ρ)))
        = List.drop i (pre F ++ w) ++ ')' :: (' ' :: lb :: ρ) := by
      rw [show pre F ++ (w ++ (')' :: ' ' :: lb :: ρ))
            = (pre F ++ w) ++ ')' :: ' ' :: lb :: ρ by simp]
      exact List.drop_append_of_le_length hAlen
    rw [hdropA] at hs
    have hnpa : ')' ∉ List.drop i (pre F ++ w) := by
      intro hx
      rcases List.mem_append.mp (List.drop_subset _ _ hx) with hx2 | hx2
      · exact not_rp_pre hrF hx2
      · exact hw hx2
    have hnpg : ')' ∉ pre G ++ u := by
      intro hx
      rcases List.mem_append.mp hx with hx2 | hx2
      · exact not_rp_pre hrG hx2
      · exact humem hx2
    obtain ⟨h1, -⟩ := split_unique ')' (List.drop i (pre F ++ w)) (pre G ++ u)
      (' ' :: lb :: ρ) (' ' :: lb :: r) hnpa hnpg (by rw [hs]; simp [List.append_assoc])
    by_cases hiA : i < (pre F).length
    · have hpreFw : pre F ++ w = 'I' :: 'f' :: ' ' :: '(' :: (F ++ '(' :: w) := by
        simp [pre, ifOpen]
      have hpreG : pre G ++ u = 'I' :: 'f' :: ' ' :: '(' :: (G ++ '(' :: u) := by
        simp [pre, ifOpen]
      have hiA5 : i < F.length + 5 := by
        simp only [pre, ifOpen, List.length_append, List.length_cons] at hiA
        simp at hiA
        omega
      rcases i with _ | _ | _ | _ | j
      · rw [List.drop_zero, hpreFw, hpreG] at h1
        simp only [List.cons.injEq, true_and] at h1
        obtain ⟨hFeq, -⟩ := split_unique '(' F G w u hpF hpG h1
        exact hFG hFeq
      · rw [hpreFw, hpreG] at h1
        simp at h1
      · rw [hpreFw, hpreG] at h1
        simp at h1
      · rw [hpreFw, hpreG] at h1
        simp at h1
      · rw [hpreFw, hpreG] at h1
        simp only [List.drop_succ_cons] at h1
        have hj1 : j + 4 < F.length + 5 := hiA5
        by_cases hjF : j < F.length
        · rw [List.drop_append_of_le_length (Nat.le_of_lt hjF),
            List.drop_eq_getElem_cons hjF] at h1
          simp only [List.cons_append, List.cons.injEq] at h1
          obtain ⟨-, h2⟩ := h1
          cases hdd : F.drop (j + 1) with
          | nil => rw [hdd] at h2; simp at h2
          | cons d rest =>
            rw [hdd] at h2
            simp only [List.cons_append, List.cons.injEq] at h2
            have hdmem : d ∈ F := by
              have hmem2 : d ∈ F.drop (j + 1) := by
                rw [hdd]; exact List.mem_cons_self d rest
              exact List.drop_subset _ _ hmem2
            exact hfF (h2.1 ▸ hdmem)
        · have hjeq : j = F.length := by omega
          subst hjeq
          rw [show List.drop F.length (F ++ '(' :: w) = '(' :: w from
            List.drop_left F ('(' :: w)] at h1
          simp at h1
    · have hjc : i - (pre F).length < cut := by omega
      have hdw : List.drop i (pre F ++ w) = List.drop (i - (pre F).length) w := by
        calc List.drop i (pre F ++ w)
            = List.drop ((pre F).length + (i - (pre F).length)) (pre F ++ w) := by
              congr 1; omega
          _ = List.drop (i - (pre F).length) w := drop_len_add _ _ _
      rw [hdw] at h1
      have hwsplit : w = List.take (i - (pre F).length) w ++ (pre G ++ u) := by
        conv_lhs => rw [← List.take_append_drop (i - (pre F).length) w]
        rw [h1]
      have hge := hocc (List.take (i - (pre F).length) w) u hwsplit hu
      have hlt : (List.take (i - (pre F).length) w).length = i - (pre F).length := by
        simp only [List.length_take]
        omega
      omega

/-! ### Passes of two different rules commute -/

theorem comm_aux {F G : Str} (hFG : F ≠ G) (hfF : 'f' ∉ F) (hpF : '(' ∉ F) (hpG : '(' ∉ G)
    (hrF : ')' ∉ F) (hrG : ')' ∉ G) {s w ρ : Str}
    (hm : matchAt F s = some (w, ρ))
    (IH : subF F (subF G ρ) = subF G (subF F ρ)) :
    subF F (subF G s) = subF G (subF F s) := by
  obtain ⟨hs, hw, hmem⟩ := matchAt_some_iff.mp hm
  have hRight : subF G (subF F s) = repl F w ++ subF G (subF F ρ) := by
    rw [subF_match hm]
    exact subF_skip (repl F w) (subF F ρ) (head_no_match hrG hrF hmem _)
  cases hin : innerSplit (pre G) w with
  | some p =>
    obtain ⟨al, u⟩ := p
    obtain ⟨hwsplit, hune⟩ := innerSplit_spec (pre G) w al u hin
    have humem : ')' ∉ u := by
      intro hx
      exact hmem (by
        rw [hwsplit]
        exact List.mem_append.mpr (Or.inr (List.mem_append.mpr (Or.inr hx))))
    have hsG : subF G s = repl F w ++ subF G ρ := by
      have hs2 : s = (pre F ++ al) ++ (pre G ++ (u ++ (')' :: ' ' :: lb :: ρ))) := by
        rw [hs, hwsplit]; simp [List.append_assoc]
      rw [hs2]
      rw [subF_skip (pre F ++ al) (pre G ++ (u ++ (')' :: ' ' :: lb :: ρ))) ?_]
      · have hmg : matchAt G (pre G ++ (u ++ (')' :: ' ' :: lb :: ρ))) = some (u, ρ) :=
          matchAt_some_iff.mpr ⟨rfl, hune, humem⟩
        rw [subF_match hmg]
        simp [repl, hwsplit, close2, List.append_assoc]
      · intro i hi
        have hcut : al.length ≤ w.length := by
          rw [hwsplit]; simp [List.length_append]
          try omega
        have hthis := defect_no_other hFG hfF hpF hpG hrF hrG hmem al.length hcut
          (innerSplit_min (pre G) w al u hin) ρ i
          (by simp only [List.length_append] at hi; omega)
        have heq2 : pre F ++ (w ++ (')' :: ' ' :: lb :: ρ))
            = (pre F ++ al) ++ (pre G ++ (u ++ (')' :: ' ' :: lb :: ρ))) := by
          rw [hwsplit]; simp [List.append_assoc]
        rw [heq2] at hthis
        exact hthis
    rw [hsG]
    rw [subF_skip (repl F w) (subF G ρ) (head_no_match hrF hrF hmem _)]
    rw [IH, hRight]
  | none =>
    have hsG : subF G s = (pre F ++ (w ++ [')', ' ', lb])) ++ subF G ρ := by
      have hs2 : s = (pre F ++ (w ++ [')', ' ', lb])) ++ ρ := by
        rw [hs]; simp
      rw [hs2]
      apply subF_skip
      intro i hi
      by_cases hiw : i < (pre F).length + w.length
      · have hocc : ∀ be z, w = be ++ (pre G ++ z) → z ≠ [] → w.length ≤ be.length :=
          fun be z hsp hz => absurd (innerSplit_none (pre G) w hin be z hsp) hz
        have hthis := defect_no_other hFG hfF hpF hpG hrF hrG hmem w.length le_rfl
          hocc ρ i hiw
        have heq2 : pre F ++ (w ++ (')' :: ' ' :: lb :: ρ))
            = (pre F ++ (w ++ [')', ' ', lb])) ++ ρ := by
          simp [List.append_assoc]
        rw [heq2] at hthis
        exact hthis
      · have hk : ∃ k, k < 3 ∧ i = (pre F ++ w).length + k := by
          refine ⟨i - ((pre F).length + w.length), ?_, ?_⟩
          · simp only [List.length_append, List.length_cons, List.length_nil] at hi
            omega
          · simp only [List.length_append]
            omega
        obtain ⟨k, hk3, hik⟩ := hk
        subst hik
        have hshape : (pre F ++ (w ++ [')', ' ', lb])) ++ ρ
            = (pre F ++ w) ++ (')' :: ' ' :: lb :: ρ) := by
          simp [List.append_assoc]
        rw [hshape, drop_len_add]
        interval_cases k
        · exact matchAt_none_of_head G _ (by decide)
        · exact matchAt_none_of_head G _ (by decide)
        · exact matchAt_none_of_head G _ (by decide)
    have hmf2 : matchAt F (subF G s) = some (w, subF G ρ) := by
      rw [hsG]
      rw [show (pre F ++ (w ++ [')', ' ', lb])) ++ subF G ρ
            = pre F ++ (w ++ (')' :: ' ' :: lb :: subF G ρ)) by simp [List.append_assoc]]
      exact matchAt_some_iff.mpr ⟨rfl, hw, hmem⟩
    rw [subF_match hmf2, IH, hRight]

theorem subF_comm {F G : Str} (hFG : F ≠ G) (hfF : 'f' ∉ F) (hfG : 'f' ∉ G)
    (hpF : '(' ∉ F) (hpG : '(' ∉ G) (hrF : ')' ∉ F) (hrG : ')' ∉ G) :
    ∀ n s, s.length ≤ n → subF F (subF G s) = subF G (subF F s) := by
  intro n
  induction n with
  | zero =>
    intro s hn
    have hnil : s = [] := List.length_eq_zero.mp (Nat.le_zero.mp hn)
    subst hnil
    rfl
  | succ n ih =>
    intro s hn
    cases hmF : matchAt F s with
    | some p =>
      obtain ⟨w, ρ⟩ := p
      have hρ : ρ.length ≤ n := by
        have := matchAt_rest_lt hmF
        omega
      exact comm_aux hFG hfF hpF hpG hrF hrG hmF (ih ρ hρ)
    | none =>
      cases hmG : matchAt G s with
      | some p =>
        obtain ⟨u, r⟩ := p
        have hr : r.length ≤ n := by
          have := matchAt_rest_lt hmG
          omega
        exact (comm_aux (Ne.symm hFG) hfG hpG hpF hrG hrF hmG (ih r hr).symm).symm
      | none =>
        cases s with
        | nil => rfl
        | cons c cs =>
          have hG1 : subF G (c :: cs) = c :: subF G cs := subF_cons_none hmG
          have hF1 : subF F (c :: cs) = c :: subF F cs := subF_cons_none hmF
          have hF2 : matchAt F (c :: subF G cs) = none := by
            have := matchAt_subF_none hrF hrG hmF
            rw [hG1] at this
            exact this
          have hG2 : matchAt G (c :: subF F cs) = none := by
            have := matchAt_subF_none hrG hrF hmG
            rw [hF1] at this
            exact this
          rw [hG1, hF1, subF_cons_none hF2, subF_cons_none hG2]
          have hcs : cs.length ≤ n := by
            simp only [List.length_cons] at hn
            omega
          rw [ih cs hcs]

theorem applyRules_perm_of_comm :
    ∀ (L1 L2 : List Str), L1.Perm L2 →
    (∀ F ∈ L1, ∀ G ∈ L1, ∀ s, subF F (subF G s) = subF G (subF F s)) →
    ∀ s, applyRules L1 s = applyRules L2 s := by
  intro L1 L2 hperm
  induction hperm with
  | nil => intro _ s; rfl
  | cons x l12 ih =>
    intro hc s
    rw [applyRules_cons, applyRules_cons]
    exact ih (fun F hF G hG s' =>
      hc F (List.mem_cons_of_mem _ hF) G (List.mem_cons_of_mem _ hG) s') _
  | swap x y l =>
    intro hc s
    rw [applyRules_cons, applyRules_cons, applyRules_cons, applyRules_cons]
    rw [hc y (by simp) x (by simp) s]
  | trans h12 h23 ih12 ih23 =>
    intro hc s
    rw [ih12 hc s]
    exact ih23 (fun F hF G hG s' =>
      hc F (h12.mem_iff.mpr hF) G (h12.mem_iff.mpr hG) s') s

theorem names_facts : ∀ F ∈ functionNames, 'f' ∉ F ∧ '(' ∉ F ∧ ')' ∉ F := by decide

theorem names_comm : ∀ F ∈ functionNames, ∀ G ∈ functionNames, ∀ s,
    subF F (subF G s) = subF G (subF F s) := by
  intro F hF G hG s
  by_cases hFG : F = G
  · rw [hFG]
  · obtain ⟨hfF, hpF, hrF⟩ := names_facts F hF
    obtain ⟨hfG, hpG, hrG⟩ := names_facts G hG
    exact subF_comm hFG hfF hfG hpF hpG hrF hrG s.length s le_rfl

theorem noMatch_of_check {F s : Str}
    (h : ∀ i, i < s.length → matchAt F (List.drop i s) = none) : noMatch F s := by
  intro i
  by_cases hi : i < s.length
  · exact h i hi
  · rw [List.drop_eq_nil_iff.mpr (by omega)]
    exact matchAt_nil F

theorem noMatch_all_of_dec {s : Str}
    (h : ∀ F ∈ functionNames, ∀ i, i < s.length → matchAt F (List.drop i s) = none) :
    ∀ F ∈ functionNames, noMatch F s :=
  fun F hF => noMatch_of_check (h F hF)

/-! ### File-table lemmas for the driver -/

theorem lookup_write_same (p : String) (c : Str) :
    ∀ fs, lookupFile p (writeFile p c fs) = some c := by
  intro fs
  induction fs with
  | nil => simp [writeFile, lookupFile]
  | cons e rest ih =>
    obtain ⟨q, d⟩ := e
    by_cases hq : q = p
    · subst hq
      simp [writeFile, lookupFile]
    · simp [writeFile, lookupFile, hq, ih]

theorem lookup_write_other {p q : String} (h : q ≠ p) (c : Str) :
    ∀ fs, lookupFile q (writeFile p c fs) = lookupFile q fs := by
  intro fs
  induction fs with
  | nil => simp [writeFile, lookupFile, Ne.symm h]
  | cons e rest ih =>
    obtain ⟨q2, d⟩ := e
    by_cases hq : q2 = p
    · subst hq
      have h2 : ¬(q2 = q) := fun hh => h (hh ▸ rfl)
      simp [writeFile, lookupFile, h2]
    · simp only [writeFile, if_neg hq, lookupFile]
      by_cases h3 : q2 = q
      · simp [h3]
      · simp [h3, ih]

/-! ### The claims -/

/-- Claim C1: for every one of the eight predicate-function names, the
substitution pass of `fix_if_statements` rewrites the defective line
`If (F(x, y) ` + brace to the repaired line `If (F(x, y)) ` + brace; and
in general, every match of a pattern is replaced by the same matched
call with exactly one closing parenthesis inserted between the call's
closing parenthesis and the space before the brace. -/
theorem c1_eight_repairs :
    (∀ F ∈ functionNames, fixContent (defLine F) = fixedLine F) ∧
    (∀ F s w ρ, matchAt F s = some (w, ρ) →
      subF F s = pre F ++ (w ++ (')' :: ')' :: ' ' :: lb :: subF F ρ))) := by
  constructor
  · decide
  · intro F s w ρ h
    rw [subF_match h]
    simp [repl, close2]

/-- Witness for C1 at the name CONTAINS. -/
theorem c1_witness :
    fixContent (defLine "CONTAINS".data) = fixedLine "CONTAINS".data ∧
    subF "CONTAINS".data (defLine "CONTAINS".data)
      = pre "CONTAINS".data
          ++ ("x, y".data ++ (')' :: ')' :: ' ' :: lb :: subF "CONTAINS".data [])) :=
  ⟨c1_eight_repairs.1 "CONTAINS".data (by decide),
   c1_eight_repairs.2 "CONTAINS".data (defLine "CONTAINS".data) "x, y".data [] (by decide)⟩

/-- Claim C2: the substitution pass is idempotent: applying the eight
ordered substitutions to the result of applying them once yields the
same string; in particular an already-fixed line is left unchanged. -/
theorem c2_idempotent :
    (∀ s, fixContent (fixContent s) = fixContent s) ∧
    (∀ F ∈ functionNames, fixContent (fixedLine F) = fixedLine F) := by
  constructor
  · intro s
    exact applyRules_eq_self functionNames (fixContent s) (noMatch_fixContent s)
  · decide

/-- Witness for C2 on a concrete string and the fixed CONTAINS line. -/
theorem c2_witness :
    fixContent (fixContent ("junk ".data ++ defLine "HAS_KEY".data))
      = fixContent ("junk ".data ++ defLine "HAS_KEY".data) ∧
    fixContent (fixedLine "CONTAINS".data) = fixedLine "CONTAINS".data :=
  ⟨c2_idempotent.1 _, c2_idempotent.2 "CONTAINS".data (by decide)⟩

/-- Claim C3 counterexample: on the spec's quoted nested-call input
`If (CONTAINS(a, FOO(b)) ` + brace, whose first closing parenthesis is
followed by another closing parenthesis rather than the space and brace,
the pass performs no match and no repair at all: the line is returned
unchanged, so no repair "lands at the first closing parenthesis". -/
theorem c3_counterexample :
    fixContent c3line = c3line ∧ c3line ≠ c3repaired := by
  exact ⟨by decide, by decide⟩

/-- Claim C3 amended: the pattern's character class stops at the first
closing parenthesis and the match additionally requires that parenthesis
to be followed by exactly one space and the brace.  Hence the quoted
line with a closed nested call is left unchanged (no match), while for
an unclosed nested call `If (CONTAINS(a, FOO(b) ` + brace the first
closing parenthesis is in match position and the repair lands there,
producing `If (CONTAINS(a, FOO(b)) ` + brace. -/
theorem c3_amended :
    fixContent c3line = c3line ∧
    fixContent c3lineUnclosed = c3lineUnclosedOut := by
  exact ⟨by decide, by decide⟩

/-- Claim C4: every string in which none of the eight patterns matches
at any position is passed through byte-for-byte unchanged. -/
theorem c4_frame {s : Str} (h : ∀ F ∈ functionNames, noMatch F s) : fixContent s = s :=
  applyRules_eq_self functionNames s h

/-- Witness for C4 on an already-balanced line. -/
theorem c4_witness :
    fixContent (ifOpen ++ ("CONTAINS".data ++ ('(' :: 'x' :: close2)))
      = ifOpen ++ ("CONTAINS".data ++ ('(' :: 'x' :: close2)) :=
  c4_frame (noMatch_all_of_dec (by decide))

/-- Claim C5: no rule's replacement re-triggers any rule, and the final
result of the pass does not depend on the order in which the eight rules
are applied: any permutation of the rule list produces the same output
as the listed order. -/
theorem c5_order_independent :
    ∀ L : List Str, L.Perm functionNames → ∀ s, applyRules L s = fixContent s := by
  intro L hL s
  exact applyRules_perm_of_comm L functionNames hL
    (fun F hF G hG s' => names_comm F (hL.mem_iff.mp hF) G (hL.mem_iff.mp hG) s') s

/-- Witness for C5: the reversed rule order on a defective line. -/
theorem c5_witness :
    applyRules functionNames.reverse (defLine "CONTAINS".data)
      = fixContent (defLine "CONTAINS".data) :=
  c5_order_independent functionNames.reverse (List.reverse_perm functionNames) _

/-- Claim C6: a three-line file holding one defective CONTAINS line, one
defective HAS_KEY line and one already-correct line is rewritten so that
both defective lines are fixed and the correct line is byte-identical. -/
theorem c6_end_to_end :
    fix_if_statements "stdlib/cli_utils.aether"
      ⟨[("stdlib/cli_utils.aether",
          defLine "CONTAINS".data
            ++ '\n' :: (defLine "HAS_KEY".data
            ++ '\n' :: fixedLine "STARTS_WITH".data))], []⟩
    = Except.ok ⟨[("stdlib/cli_utils.aether",
          fixedLine "CONTAINS".data
            ++ '\n' :: (fixedLine "HAS_KEY".data
            ++ '\n' :: fixedLine "STARTS_WITH".data))],
        ["Fixed stdlib/cli_utils.aether"]⟩ := by
  rfl

/-- Claim C7: the driver processes exactly the three fixed paths in
their listed order with no error recovery: when the second path is
missing, the failure propagates carrying that path, the third path is
never processed (its entry is untouched), and the first file keeps its
patched content with its confirmation line already printed. -/
theorem c7_driver :
    targetFiles = ["stdlib/cli_utils.aether", "stdlib/text_template.aether",
      "stdlib/regex_utils.aether"] ∧
    ∀ (st : FS) (c1 : Str),
      lookupFile "stdlib/cli_utils.aether" st.files = some c1 →
      lookupFile "stdlib/text_template.aether" st.files = none →
      ∃ st' : FS, runMain st = Except.error ("stdlib/text_template.aether", st') ∧
        lookupFile "stdlib/cli_utils.aether" st'.files = some (fixContent c1) ∧
        lookupFile "stdlib/regex_utils.aether" st'.files
          = lookupFile "stdlib/regex_utils.aether" st.files ∧
        st'.output = st.output ++ ["Fixed stdlib/cli_utils.aether"] := by
  refine ⟨rfl, ?_⟩
  intro st c1 h1 h2
  have hw2 : lookupFile "stdlib/text_template.aether"
      (writeFile "stdlib/cli_utils.aether" (fixContent c1) st.files) = none := by
    rw [lookup_write_other (by decide) _ st.files]
    exact h2
  have hstep1 : fix_if_statements "stdlib/cli_utils.aether" st
      = Except.ok ⟨writeFile "stdlib/cli_utils.aether" (fixContent c1) st.files,
          st.output ++ ["Fixed " ++ "stdlib/cli_utils.aether"]⟩ := by
    simp only [fix_if_statements, h1]
  refine ⟨⟨writeFile "stdlib/cli_utils.aether" (fixContent c1) st.files,
      st.output ++ ["Fixed " ++ "stdlib/cli_utils.aether"]⟩, ?_, ?_, ?_, ?_⟩
  · have hstep2 : fix_if_statements "stdlib/text_template.aether"
        (⟨writeFile "stdlib/cli_utils.aether" (fixContent c1) st.files,
          st.output ++ ["Fixed " ++ "stdlib/cli_utils.aether"]⟩ : FS)
        = Except.error "stdlib/text_template.aether" := by
      simp only [fix_if_statements, hw2]
    simp only [runMain, targetFiles, runAll, hstep1, hstep2]
  · exact lookup_write_same _ _ _
  · exact lookup_write_other (by decide) _ _
  · rfl

/-- Witness for C7 with a one-file table. -/
theorem c7_witness :
    ∃ st' : FS,
      runMain ⟨[("stdlib/cli_utils.aether", defLine "REGEX_IS_URL".data)], []⟩
        = Except.error ("stdlib/text_template.aether", st') ∧
      lookupFile "stdlib/cli_utils.aether" st'.files
        = some (fixContent (defLine "REGEX_IS_URL".data)) ∧
      lookupFile "stdlib/regex_utils.aether" st'.files
        = lookupFile "stdlib/regex_utils.aether"
            (FS.mk [("stdlib/cli_utils.aether", defLine "REGEX_IS_URL".data)] []).files ∧
      st'.output = ([] : List String) ++ ["Fixed stdlib/cli_utils.aether"] :=
  c7_driver.2 ⟨[("stdlib/cli_utils.aether", defLine "REGEX_IS_URL".data)], []⟩
    (defLine "REGEX_IS_URL".data) (by decide) (by decide)

/-- Claim C8: for every successfully processed file exactly one line
`Fixed <path>` is appended to standard output, in the same step that
writes the transformed content back; a normal run over three present
paths appends exactly the three confirmation lines in path-list order. -/
theorem c8_output :
    (∀ (p : String) (st : FS) (c : Str), lookupFile p st.files = some c →
      fix_if_statements p st
        = Except.ok ⟨writeFile p (fixContent c) st.files, st.output ++ ["Fixed " ++ p]⟩) ∧
    (∀ (st : FS) (c1 c2 c3 : Str),
      lookupFile "stdlib/cli_utils.aether" st.files = some c1 →
      lookupFile "stdlib/text_template.aether" st.files = some c2 →
      lookupFile "stdlib/regex_utils.aether" st.files = some c3 →
      ∃ fs : List (String × Str), runMain st = Except.ok ⟨fs,
        st.output ++ ["Fixed stdlib/cli_utils.aether", "Fixed stdlib/text_template.aether",
          "Fixed stdlib/regex_utils.aether"]⟩) := by
  constructor
  · intro p st c h
    simp only [fix_if_statements, h]
  · intro st c1 c2 c3 h1 h2 h3
    have e1 : fix_if_statements "stdlib/cli_utils.aether" st
        = Except.ok ⟨writeFile "stdlib/cli_utils.aether" (fixContent c1) st.files,
            st.output ++ ["Fixed " ++ "stdlib/cli_utils.aether"]⟩ := by
      simp only [fix_if_statements, h1]
    have h2b : lookupFile "stdlib/text_template.aether"
        (writeFile "stdlib/cli_utils.aether" (fixContent c1) st.files) = some c2 := by
      rw [lookup_write_other (by decide) _ st.files]
      exact h2
    have e2 : fix_if_statements "stdlib/text_template.aether"
        (⟨writeFile "stdlib/cli_utils.aether" (fixContent c1) st.files,
            st.output ++ ["Fixed " ++ "stdlib/cli_utils.aether"]⟩ : FS)
        = Except.ok ⟨writeFile "stdlib/text_template.aether" (fixContent c2)
              (writeFile "stdlib/cli_utils.aether" (fixContent c1) st.files),
            (st.output ++ ["Fixed " ++ "stdlib/cli_utils.aether"])
              ++ ["Fixed " ++ "stdlib/text_template.aether"]⟩ := by
      simp only [fix_if_statements, h2b]
    have h3b : lookupFile "stdlib/regex_utils.aether"
        (writeFile "stdlib/text_template.aether" (fixContent c2)
          (writeFile "stdlib/cli_utils.aether" (fixContent c1) st.files)) = some c3 := by
      rw [lookup_write_other (by decide) _ _, lookup_write_other (by decide) _ st.files]
      exact h3
    have e3 : fix_if_statements "stdlib/regex_utils.aether"
        (⟨writeFile "stdlib/text_template.aether" (fixContent c2)
            (writeFile "stdlib/cli_utils.aether" (fixContent c1) st.files),
          (st.output ++ ["Fixed " ++ "stdlib/cli_utils.aether"])
            ++ ["Fixed " ++ "stdlib/text_template.aether"]⟩ : FS)
        = Except.ok ⟨writeFile "stdlib/regex_utils.aether" (fixContent c3)
              (writeFile "stdlib/text_template.aether" (fixContent c2)
                (writeFile "stdlib/cli_utils.aether" (fixContent c1) st.files)),
            ((st.output ++ ["Fixed " ++ "stdlib/cli_utils.aether"])
              ++ ["Fixed " ++ "stdlib/text_template.aether"])
              ++ ["Fixed " ++ "stdlib/regex_utils.aether"]⟩ := by
      simp only [fix_if_statements, h3b]
    refine ⟨writeFile "stdlib/regex_utils.aether" (fixContent c3)
        (writeFile "stdlib/text_template.aether" (fixContent c2)
          (writeFile "stdlib/cli_utils.aether" (fixContent c1) st.files)), ?_⟩
    simp only [runMain, targetFiles, runAll, e1, e2, e3]
    simp [List.append_assoc]

/-- Witness for C8 with a concrete three-file table. -/
theorem c8_witness :
    (fix_if_statements "stdlib/cli_utils.aether"
        ⟨[("stdlib/cli_utils.aether", defLine "CONTAINS".data)], []⟩
      = Except.ok ⟨writeFile "stdlib/cli_utils.aether"
            (fixContent (defLine "CONTAINS".data))
            [("stdlib/cli_utils.aether", defLine "CONTAINS".data)],
          ([] : List String) ++ ["Fixed " ++ "stdlib/cli_utils.aether"]⟩) ∧
    (∃ fs : List (String × Str),
      runMain ⟨[("stdlib/cli_utils.aether", defLine "CONTAINS".data),
                ("stdlib/text_template.aether", defLine "HAS_KEY".data),
                ("stdlib/regex_utils.aether", fixedLine "REGEX_IS_URL".data)], []⟩
        = Except.ok ⟨fs,
            ([] : List String) ++ ["Fixed stdlib/cli_utils.aether",
              "Fixed stdlib/text_template.aether", "Fixed stdlib/regex_utils.aether"]⟩) :=
  ⟨c8_output.1 "stdlib/cli_utils.aether"
      ⟨[("stdlib/cli_utils.aether", defLine "CONTAINS".data)], []⟩
      (defLine "CONTAINS".data) (by decide),
   c8_output.2 ⟨[("stdlib/cli_utils.aether", defLine "CONTAINS".data),
                ("stdlib/text_template.aether", defLine "HAS_KEY".data),
                ("stdlib/regex_utils.aether", fixedLine "REGEX_IS_URL".data)], []⟩
      (defLine "CONTAINS".data) (defLine "HAS_KEY".data) (fixedLine "REGEX_IS_URL".data)
      (by decide) (by decide) (by decide)⟩

/-- Claim C9: a defective conditional with an empty argument list, such
as `If (F() ` + brace for any of the eight names, is left unchanged,
because the argument character class requires at least one character. -/
theorem c9_empty_args :
    ∀ F ∈ functionNames,
      fixContent (ifOpen ++ (F ++ ('(' :: close1))) = ifOpen ++ (F ++ ('(' :: close1)) := by
  decide

/-- Witness for C9 at the name CONTAINS. -/
theorem c9_witness :
    fixContent (ifOpen ++ ("CONTAINS".data ++ ('(' :: close1)))
      = ifOpen ++ ("CONTAINS".data ++ ('(' :: close1)) :=
  c9_empty_args "CONTAINS".data (by decide)

/-- Claim C10: matching is case-sensitive and whitespace-exact: a
lowercase `if`, a doubled space after `If`, a missing space before the
brace, or a tab before the brace all make every pattern fail, leaving
the line unchanged. -/
theorem c10_exact_text :
    fixContent (['i', 'f', ' ', '('] ++ ("CONTAINS".data ++ ('(' :: 'x' :: close1)))
      = ['i', 'f', ' ', '('] ++ ("CONTAINS".data ++ ('(' :: 'x' :: close1)) ∧
    fixContent (['I', 'f', ' ', ' ', '('] ++ ("CONTAINS".data ++ ('(' :: 'x' :: close1)))
      = ['I', 'f', ' ', ' ', '('] ++ ("CONTAINS".data ++ ('(' :: 'x' :: close1)) ∧
    fixContent (ifOpen ++ ("CONTAINS".data ++ ['(', 'x', ')', lb]))
      = ifOpen ++ ("CONTAINS".data ++ ['(', 'x', ')', lb]) ∧
    fixContent (ifOpen ++ ("CONTAINS".data ++ ['(', 'x', ')', '\t', lb]))
      = ifOpen ++ ("CONTAINS".data ++ ['(', 'x', ')', '\t', lb]) := by
  exact ⟨by decide, by decide, by decide, by decide⟩
